import Mathlib

/-
Verification of the task-runner core of the repository (src/Tasks/tasks.py).

Strings are modelled as `List Char`.  Python `str.strip`, `str.split`,
`str.splitlines`, the two anchored regex substitutions of
`_standard_line_clean`, and the placeholder regex `\x7b(\w+)\x7d` of
`_load_and_fill_prompt` are embedded operationally below.  The regex
character class `\w` (resp. `\d`) is modelled as ASCII alphanumeric or
underscore (resp. ASCII digit), and `str.splitlines` is modelled on the
common line terminators (LF, CRLF, CR).  Placeholder values (Python `Any`,
used only through `str(...)`) are modelled by their string form.

Scanning functions that jump over a matched placeholder are written with an
explicit fuel argument (the fuel never runs out when it is at least the
length of the remaining input, which every wrapper supplies), so that all
definitions compute by kernel reduction.
-/

/-- The opening brace character, written by code so that it can appear in
patterns without a brace literal. -/
def lbChar : Char := Char.ofNat 123

/-- The closing brace character. -/
def rbChar : Char := Char.ofNat 125

/-- Backquote character (part of the quote/emphasis strip set of
`_split_key_val`). -/
def bqChar : Char := Char.ofNat 96

/-- Single-quote character. -/
def sqChar : Char := Char.ofNat 39

/-- Double-quote character. -/
def dqChar : Char := Char.ofNat 34

/-- Python whitespace, as stripped by `str.strip()` (ASCII part). -/
def isPyWs (c : Char) : Bool :=
  c = ' ' || c = '\t' || c = '\n' || c = '\r' || c = Char.ofNat 11 || c = Char.ofNat 12

/-- The regex class `\w`: ASCII letters, digits, underscore. -/
def isWordChar (c : Char) : Bool :=
  c.isAlphanum || c = '_'

/-- The bullet glyphs of the regex `[-*••]` in `_standard_line_clean`. -/
def isBullet (c : Char) : Bool :=
  c = '-' || c = '*' || c = '•'

/-- The quote/markdown-emphasis characters stripped from both parts by
`_split_key_val` (the Python argument to `str.strip`). -/
def isQuoteMark (c : Char) : Bool :=
  c = '*' || c = '_' || c = bqChar || c = dqChar || c = sqChar || c = ' '

/-- Drop matching characters from the end of a list. -/
def stripEnd (p : Char → Bool) (l : List Char) : List Char :=
  (l.reverse.dropWhile p).reverse

/-- Drop matching characters from both ends (Python `str.strip` with a
character-class predicate). -/
def stripBoth (p : Char → Bool) (l : List Char) : List Char :=
  stripEnd p (l.dropWhile p)

/-- Python `str.strip()` (no argument): strip whitespace from both ends. -/
def pyStrip (l : List Char) : List Char :=
  stripBoth isPyWs l

/-- Python `str.upper()` (ASCII model). -/
def pyUpper (l : List Char) : List Char :=
  l.map Char.toUpper

/-- Python `str.splitlines()` accumulator: `acc` holds the current line in
reverse.  A trailing line terminator does not produce a final empty line. -/
def splitLinesAux : List Char → List Char → List (List Char)
  | [], acc => if acc.isEmpty then [] else [acc.reverse]
  | '\r' :: '\n' :: rest, acc => acc.reverse :: splitLinesAux rest []
  | '\n' :: rest, acc => acc.reverse :: splitLinesAux rest []
  | '\r' :: rest, acc => acc.reverse :: splitLinesAux rest []
  | c :: rest, acc => splitLinesAux rest (c :: acc)

/-- Python `response.splitlines()`. -/
def splitLines (l : List Char) : List (List Char) :=
  splitLinesAux l []

/-- The substitution `re.sub(r'^\s*[-*••]\s*', '', line)` of
`_standard_line_clean`: if the line starts with optional whitespace, one
bullet glyph and optional whitespace, remove that prefix, else leave the
line unchanged. -/
def stripBullet (l : List Char) : List Char :=
  match l.dropWhile isPyWs with
  | b :: t => if isBullet b then t.dropWhile isPyWs else l
  | [] => l

/-- The substitution `re.sub(r'^\d+\.?\s*', '', line)` of
`_standard_line_clean`: strip leading digits, an optional dot and optional
whitespace; no change when the line does not start with a digit. -/
def stripOrdinal (l : List Char) : List Char :=
  if (l.takeWhile Char.isDigit).isEmpty then l
  else
    let rest := l.dropWhile Char.isDigit
    let rest2 := match rest with
      | c :: t => if c = '.' then t else rest
      | [] => rest
    rest2.dropWhile isPyWs

/-- `LLMTask._standard_line_clean`: strip whitespace; an empty result is
returned at once; otherwise strip one leading bullet, then a leading
number (with optional dot), then strip again. -/
def standardLineClean (l : List Char) : List Char :=
  let line := pyStrip l
  if line.isEmpty then []
  else pyStrip (stripOrdinal (stripBullet line))

/-- Boolean prefix test on character lists (Python `str.startswith`, used
to model substring search). -/
def isPrefixL : List Char → List Char → Bool
  | [], _ => true
  | _ :: _, [] => false
  | a :: as, b :: bs => a = b && isPrefixL as bs

/-- Python `line.split(sep, 1)` preceded by the `sep in line` test: locate
the first occurrence of `sep` and split there; `none` when `sep` does not
occur. -/
def splitOnFirst (sep : List Char) : List Char → Option (List Char × List Char)
  | [] => if sep.isEmpty then some ([], []) else none
  | c :: cs =>
    if isPrefixL sep (c :: cs) then some ([], (c :: cs).drop sep.length)
    else
      match splitOnFirst sep cs with
      | some (a, b) => some (c :: a, b)
      | none => none

/-- Strip whitespace and then the quote/emphasis characters from one part,
as `_split_key_val` does with `.strip().strip('*_` + backquote etc. -/
def cleanPart (l : List Char) : List Char :=
  stripBoth isQuoteMark (pyStrip l)

/-- The separator list of `_split_key_val`, in the priority order of the
source: colon, space-hyphen-space, space-em-dash-space, en-dash, tab. -/
def pySeparators : List (List Char) :=
  [[':'], [' ', '-', ' '], [' ', '—', ' '], ['–'], ['\t']]

/-- Try each separator in order; split on the first occurrence of the
first separator present anywhere in the line. -/
def trySeps : List (List Char) → List Char → Option (List Char × List Char)
  | [], _ => none
  | sep :: rest, line =>
    match splitOnFirst sep line with
    | some (a, b) => some (cleanPart a, cleanPart b)
    | none => trySeps rest line

/-- `LLMTask._split_key_val`: try the separators in priority order; with no
separator present a non-empty line becomes the key with an empty value and
an empty line yields nothing. -/
def splitKeyVal (line : List Char) : Option (List Char × List Char) :=
  match trySeps pySeparators line with
  | some r => some r
  | none => if line.isEmpty then none else some (cleanPart line, [])

/-- Placeholder maps (`Dict[str, Any]`): association lists from marker
names to the string form of the value. -/
abbrev PMap : Type := List (List Char × List Char)

/-- Python `dict.get`: first binding of the key, if any. -/
def lookupV : PMap → List Char → Option (List Char)
  | [], _ => none
  | (k, v) :: rest, key => if k = key then some v else lookupV rest key

/-- Python truthiness-based `a or b` on optional strings (`None` and the
empty string are falsy). -/
def pyOr : Option (List Char) → Option (List Char) → Option (List Char)
  | some s, b => if s.isEmpty then b else some s
  | none, b => b

/-- `list(dict.fromkeys(...))`: deduplicate keeping first occurrences;
`seen` holds the names already kept. -/
def dedupAux : List (List Char) → List (List Char) → List (List Char)
  | [], _ => []
  | x :: xs, seen => if x ∈ seen then dedupAux xs seen else x :: dedupAux xs (x :: seen)

/-- One scanning pass of `re.sub(r"\x7b(\w+)\x7d", repl, raw)`: at an
opening brace followed by a non-empty run of word characters and a closing
brace, emit the string form of the bound value (absent names give the
empty string, as in `placeholders.get(name, "")`) and continue after the
marker; otherwise emit the character and continue.  `fuel` bounds the
recursion and is sufficient whenever it is at least the input length. -/
def scanFill (pl : PMap) : Nat → List Char → List Char
  | _, [] => []
  | 0, l => l
  | fuel + 1, c :: cs =>
    if c = lbChar then
      let name := cs.takeWhile isWordChar
      if name.isEmpty then c :: scanFill pl fuel cs
      else
        match cs.dropWhile isWordChar with
        | r :: rest =>
          if r = rbChar then ((lookupV pl name).getD []) ++ scanFill pl fuel rest
          else c :: scanFill pl fuel cs
        | [] => c :: scanFill pl fuel cs
    else c :: scanFill pl fuel cs

/-- The textual substitution of `_load_and_fill_prompt`. -/
def fillSub (pl : PMap) (l : List Char) : List Char :=
  scanFill pl l.length l

/-- The scanning pass of `re.findall(r"\x7b(\w+)\x7d", text)`: every
marker name, in occurrence order, with duplicates. -/
def scanMarkers : Nat → List Char → List (List Char)
  | _, [] => []
  | 0, _ => []
  | fuel + 1, c :: cs =>
    if c = lbChar then
      let name := cs.takeWhile isWordChar
      if name.isEmpty then scanMarkers fuel cs
      else
        match cs.dropWhile isWordChar with
        | r :: rest =>
          if r = rbChar then name :: scanMarkers fuel rest
          else scanMarkers fuel cs
        | [] => scanMarkers fuel cs
    else scanMarkers fuel cs

/-- `LLMTask._find_placeholders`: marker names, unique, in
first-occurrence order. -/
def findPlaceholders (l : List Char) : List (List Char) :=
  dedupAux (scanMarkers l.length l) []

/-- Every opening brace of the template opens a well-formed marker
(non-empty word-character name closed by a brace).  Used as a hypothesis of
the amended templating claim; templates produced from ordinary prompt text
satisfy it. -/
def wellBracedF : Nat → List Char → Bool
  | _, [] => true
  | 0, _ => false
  | fuel + 1, c :: cs =>
    if c = lbChar then
      let name := cs.takeWhile isWordChar
      if name.isEmpty then false
      else
        match cs.dropWhile isWordChar with
        | r :: rest => if r = rbChar then wellBracedF fuel rest else false
        | [] => false
    else wellBracedF fuel cs

/-- Wrapper of `wellBracedF` at canonical fuel. -/
def wellBraced (l : List Char) : Bool :=
  wellBracedF l.length l

/-- The `ValueError` of `_load_and_fill_prompt`: every unmet marker name
(in template first-occurrence order) together with the names actually
supplied. -/
structure FillError where
  missing : List (List Char)
  provided : List (List Char)
deriving DecidableEq

/-- `LLMTask._load_and_fill_prompt` on the already-loaded template text:
compute the marker names, fail when any has no binding, else substitute.
(The file-existence check of the source is I/O and outside this model.) -/
def loadAndFillPrompt (raw : List Char) (pl : PMap) : Except FillError (List Char) :=
  let names := findPlaceholders raw
  let missing := names.filter (fun p => (lookupV pl p).isNone)
  if missing.isEmpty then Except.ok (fillSub pl raw)
  else Except.error ⟨missing, pl.map Prod.fst⟩

/-- The key `"language"`. -/
def langKey : List Char := ['l', 'a', 'n', 'g', 'u', 'a', 'g', 'e']

/-- The key `"sentiment"`. -/
def sentKey : List Char := ['s', 'e', 'n', 't', 'i', 'm', 'e', 'n', 't']

/-- The key `"sentiment_type"`. -/
def sentTypeKey : List Char :=
  ['s', 'e', 'n', 't', 'i', 'm', 'e', 'n', 't', '_', 't', 'y', 'p', 'e']

/-- The sentinel word `"DONE"`. -/
def doneWord : List Char := ['D', 'O', 'N', 'E']

/-- One record of `_parse_lexicon_generating`. -/
structure LexItem where
  word : List Char
  translation : List Char
  language : Option (List Char)
  sentiment : Option (List Char)
deriving DecidableEq

/-- Build the record appended for one parsed pair by
`_parse_lexicon_generating` (the `if not translation: pass` branch of the
source is a no-op and is omitted). -/
def lexEntry (pl : PMap) (w t : List Char) : LexItem :=
  ⟨w, t, lookupV pl langKey, pyOr (lookupV pl sentKey) (lookupV pl sentTypeKey)⟩

/-- `LLMTask._parse_lexicon_generating`: clean each line, skip the cleaned
line when it is empty, a bare DONE (case-insensitive) or starts with the
comment marker, else split it into a key/value record. -/
def parseLexiconGenerating (resp : List Char) (pl : PMap) : List LexItem :=
  (splitLines resp).flatMap (fun raw =>
    let line := standardLineClean raw
    if line.isEmpty || pyUpper line = doneWord || line.head? = some '#' then []
    else
      match splitKeyVal line with
      | none => []
      | some (w, t) => [lexEntry pl w t])

/-- Modelled from the spec (claim C6 wording): per-line pipeline in which
the skip decision (empty, DONE, comment) is taken on the merely trimmed
line, strictly before bullet and ordinal stripping. -/
def specOrderLexParse (resp : List Char) (pl : PMap) : List LexItem :=
  (splitLines resp).flatMap (fun raw =>
    let t := pyStrip raw
    if t.isEmpty || pyUpper t = doneWord || t.head? = some '#' then []
    else
      let line := pyStrip (stripOrdinal (stripBullet t))
      match splitKeyVal line with
      | none => []
      | some (w, tr) => [lexEntry pl w tr])

/-- Modelled from the amended claim C6: full cleaning (trim, bullet strip,
ordinal strip, trim) is performed first, and the skip decision is applied
to the fully cleaned line. -/
def cleanFirstLexParse (resp : List Char) (pl : PMap) : List LexItem :=
  (splitLines resp).flatMap (fun raw =>
    let t := pyStrip raw
    let line := if t.isEmpty then [] else pyStrip (stripOrdinal (stripBullet t))
    if line.isEmpty || pyUpper line = doneWord || line.head? = some '#' then []
    else
      match splitKeyVal line with
      | none => []
      | some (w, tr) => [lexEntry pl w tr])

/-- One call to the generation capability: generated text, or a raised
provider error. -/
inductive GenResult
  | ok (s : List Char)
  | err
deriving DecidableEq

/-- One progress-callback invocation: the uncapped accumulator length when
it was made, the two arguments passed, and whether the callback raised
(the exception is caught and discarded by the loop). -/
structure CbCall where
  accLen : Nat
  a1 : Int
  a2 : Int
  raised : Bool
deriving DecidableEq

/-- The observable outcome of the batch loop: accumulated records, number
of executed loop bodies (= generation calls), and the progress-callback
invocations in order. -/
structure LoopOut (α : Type) where
  collected : List α
  batches : Nat
  calls : List CbCall
deriving DecidableEq

/-- Python `collected[:target_count]` for an arbitrary (possibly negative)
integer bound. -/
def pyTrim {α : Type} (l : List α) (n : Int) : List α :=
  if 0 ≤ n then l.take n.toNat else l.take (l.length - (-n).toNat)

/-- The `while` loop of `LLMTask.run`.  `gen i` is the outcome of the
`i`-th generation call (the filled prompt, temperature and max_tokens are
fixed for the whole run, so the collaborator is indexed by the batch
number only); `parse` is the strategy selected by
`_parse_response_by_task`; `cb` the optional progress callback, returning
whether it raises.  One fuel unit per iteration; `run` supplies
`maxB.toNat`, which never runs out because each iteration needs
`batches < maxB`. -/
def runLoop {α : Type} (gen : Nat → GenResult) (parse : List Char → List α)
    (cb : Option (Int → Int → Bool)) (target maxB : Int) :
    Nat → List α → Nat → List CbCall → LoopOut α
  | 0, collected, b, calls => ⟨collected, b, calls⟩
  | fuel + 1, collected, b, calls =>
    if (collected.length : Int) < target ∧ (b : Int) < maxB then
      match gen (b + 1) with
      | GenResult.err => ⟨collected, b + 1, calls⟩
      | GenResult.ok s =>
        let items := parse s
        if items.isEmpty then ⟨collected, b + 1, calls⟩
        else
          let collected2 := collected ++ items
          let calls2 :=
            match cb with
            | none => calls
            | some f =>
              let a1 := min (collected2.length : Int) target
              calls ++ [⟨collected2.length, a1, target, f a1 target⟩]
          runLoop gen parse cb target maxB fuel collected2 (b + 1) calls2
    else ⟨collected, b, calls⟩

/-- `LLMTask.run`: fill the prompt once (any failure propagates), loop
batches, and return the accumulator trimmed to the requested size. -/
def run {α : Type} (tm : List Char) (pl : PMap) (gen : Nat → GenResult)
    (parse : List Char → List α) (cb : Option (Int → Int → Bool))
    (target maxB : Int) : Except FillError (LoopOut α) :=
  match loadAndFillPrompt tm pl with
  | Except.error e => Except.error e
  | Except.ok _filled =>
    let out := runLoop gen parse cb target maxB maxB.toNat [] 0 []
    Except.ok ⟨pyTrim out.collected target, out.batches, out.calls⟩

theorem dropWhile_len_le (p : Char → Bool) (l : List Char) :
    (l.dropWhile p).length ≤ l.length := by
  induction l with
  | nil => simp
  | cons c cs ih =>
    by_cases h : p c
    · simp [List.dropWhile_cons, h]
      omega
    · simp [List.dropWhile_cons, h]

theorem dropWhile_eq_self_of_len (p : Char → Bool) (l : List Char)
    (h : (l.dropWhile p).length = l.length) : l.dropWhile p = l := by
  induction l with
  | nil => simp
  | cons c cs ih =>
    by_cases hp : p c
    · exfalso
      have h2 := dropWhile_len_le p cs
      rw [List.dropWhile_cons, if_pos hp] at h
      simp at h
      omega
    · rw [List.dropWhile_cons, if_neg hp]

theorem stripEnd_len_le (p : Char → Bool) (l : List Char) :
    (stripEnd p l).length ≤ l.length := by
  unfold stripEnd
  have h := dropWhile_len_le p l.reverse
  simp at h ⊢
  omega

theorem stripBoth_id_dropWhile (p : Char → Bool) (l : List Char)
    (h : stripBoth p l = l) : l.dropWhile p = l := by
  have h1 : (stripBoth p l).length ≤ (l.dropWhile p).length := stripEnd_len_le p _
  have h2 : (l.dropWhile p).length ≤ l.length := dropWhile_len_le p l
  have h3 : (stripBoth p l).length = l.length := by rw [h]
  exact dropWhile_eq_self_of_len p l (by omega)

/-- Claim C9: line cleaning is idempotent on already-clean input — a line
that is already trimmed, with no leading bullet glyph and no leading
digit, is returned unchanged by `_standard_line_clean`. -/
theorem claim_C9_clean_idempotent (l : List Char)
    (htrim : pyStrip l = l)
    (hhead : ∀ c, l.head? = some c → isBullet c = false ∧ c.isDigit = false) :
    standardLineClean l = l := by
  have hdw : l.dropWhile isPyWs = l := stripBoth_id_dropWhile isPyWs l htrim
  cases l with
  | nil => rfl
  | cons c cs =>
    obtain ⟨hb, hd⟩ := hhead c rfl
    have hbul : stripBullet (c :: cs) = c :: cs := by
      unfold stripBullet
      rw [hdw]
      simp [hb]
    have hord : stripOrdinal (c :: cs) = c :: cs := by
      unfold stripOrdinal
      simp [List.takeWhile_cons, hd]
    unfold standardLineClean
    rw [htrim]
    simp only [List.isEmpty_cons, Bool.false_eq_true, if_false]
    rw [hbul, hord, htrim]

/-- Witness for claim C9 at a concrete clean line. -/
theorem claim_C9_witness :
    standardLineClean ['h', 'i', ':', ' ', 'x'] = ['h', 'i', ':', ' ', 'x'] :=
  claim_C9_clean_idempotent _ (by decide) (by decide)

/-- The input line refuting claim C6 (a bulleted DONE sentinel). -/
def bulletDone : List Char := ['-', ' ', 'D', 'O', 'N', 'E']

/-- Counterexample to claim C6 as stated: on the line consisting of a
bullet followed by DONE, the parser of the source (which cleans first and
then decides the skip) yields no record, while the spec order (skip
decision strictly before bullet and ordinal stripping) yields one. -/
theorem claim_C6_counterexample :
    parseLexiconGenerating bulletDone [] = []
    ∧ specOrderLexParse bulletDone [] = [⟨doneWord, [], none, none⟩]
    ∧ specOrderLexParse bulletDone [] ≠ parseLexiconGenerating bulletDone [] := by
  refine ⟨by decide, by decide, by decide⟩

/-- Claim C6 (amended): line handling first fully cleans the line (trim,
strip one leading bullet glyph, strip a leading numeric ordinal marker,
trim again), and the skip decision — empty line, bare case-insensitive
DONE, or leading comment marker — is made on the fully cleaned line. -/
theorem claim_C6_amended (resp : List Char) (pl : PMap) :
    parseLexiconGenerating resp pl = cleanFirstLexParse resp pl := rfl

/-- `sep` occurs as a contiguous substring of `l` (Python `sep in line`). -/
def occursIn (sep l : List Char) : Prop :=
  ∃ x y, l = x ++ sep ++ y

theorem isPrefixL_iff (s l : List Char) :
    isPrefixL s l = true ↔ ∃ t, l = s ++ t := by
  induction s generalizing l with
  | nil => simp [isPrefixL]
  | cons a as ih =>
    cases l with
    | nil =>
      simp only [isPrefixL]
      constructor
      · intro h
        exact absurd h (by simp)
      · rintro ⟨t, ht⟩
        simp at ht
    | cons b bs =>
      simp only [isPrefixL, Bool.and_eq_true, decide_eq_true_eq, ih]
      constructor
      · rintro ⟨rfl, t, rfl⟩
        exact ⟨t, rfl⟩
      · rintro ⟨t, ht⟩
        injection ht with h1 h2
        exact ⟨h1.symm, t, h2⟩

theorem splitOnFirst_isSome_iff (sep l : List Char) :
    (splitOnFirst sep l).isSome = true ↔ occursIn sep l := by
  induction l with
  | nil =>
    simp only [splitOnFirst]
    cases sep with
    | nil => simp [occursIn]
    | cons s ss =>
      simp only [List.isEmpty_cons, Bool.false_eq_true, if_false, Option.isSome_none]
      constructor
      · intro h
        simp at h
      · rintro ⟨x, y, h⟩
        simp [List.append_eq_nil] at h
  | cons c cs ih =>
    simp only [splitOnFirst]
    by_cases hp : isPrefixL sep (c :: cs) = true
    · simp only [hp, if_true, Option.isSome_some, true_iff]
      obtain ⟨t, ht⟩ := (isPrefixL_iff sep (c :: cs)).mp hp
      exact ⟨[], t, by simpa using ht⟩
    · simp only [hp, if_false]
      have hocc : occursIn sep (c :: cs) ↔ occursIn sep cs := by
        constructor
        · rintro ⟨x, y, h⟩
          cases x with
          | nil =>
            exact absurd ((isPrefixL_iff sep (c :: cs)).mpr ⟨y, by simpa using h⟩) hp
          | cons d ds =>
            injection h with h1 h2
            exact ⟨ds, y, h2⟩
        · rintro ⟨x, y, h⟩
          exact ⟨c :: x, y, by simp [h]⟩
      rw [hocc, ← ih]
      cases hs : splitOnFirst sep cs with
      | none => simp
      | some p =>
        cases p with
        | mk a b => simp

instance occursInDec (sep l : List Char) : Decidable (occursIn sep l) :=
  decidable_of_iff _ (splitOnFirst_isSome_iff sep l)

theorem splitOnFirst_none_iff (sep l : List Char) :
    splitOnFirst sep l = none ↔ ¬ occursIn sep l := by
  rw [← splitOnFirst_isSome_iff]
  cases h : splitOnFirst sep l <;> simp

theorem isPrefixL_append (s t : List Char) : isPrefixL s (s ++ t) = true := by
  induction s with
  | nil => simp [isPrefixL]
  | cons a as ih => simp [isPrefixL, ih]

/-- Splitting at a marked occurrence: when `sep` does not occur strictly
earlier (no occurrence inside the prefix that ends one character before
the marked occurrence ends), `split(sep, 1)` returns exactly the parts
around the marked occurrence. -/
theorem splitOnFirst_of_first (sep a b : List Char) (hsep : sep ≠ [])
    (hfirst : ¬ occursIn sep ((a ++ sep).dropLast)) :
    splitOnFirst sep (a ++ sep ++ b) = some (a, b) := by
  induction a with
  | nil =>
    simp only [List.nil_append]
    obtain ⟨s, ss, rfl⟩ : ∃ s ss, sep = s :: ss := by
      cases sep with
      | nil => exact absurd rfl hsep
      | cons s ss => exact ⟨s, ss, rfl⟩
    rw [show (s :: ss) ++ b = s :: (ss ++ b) by simp]
    simp only [splitOnFirst]
    rw [show s :: (ss ++ b) = (s :: ss) ++ b by simp]
    rw [if_pos (isPrefixL_append (s :: ss) b), List.drop_left]
  | cons x a2 ih =>
    rw [show (x :: a2) ++ sep ++ b = x :: (a2 ++ sep ++ b) by simp]
    simp only [splitOnFirst]
    have hnp : isPrefixL sep (x :: (a2 ++ sep ++ b)) = false := by
      cases h2 : isPrefixL sep (x :: (a2 ++ sep ++ b)) with
      | false => rfl
      | true =>
        exfalso
        obtain ⟨t, ht⟩ := (isPrefixL_iff _ _).mp h2
        apply hfirst
        have hL : ((x :: a2) ++ sep).dropLast = sep ++ t.take a2.length := by
          rw [List.dropLast_eq_take]
          have hlen1 : ((x :: a2) ++ sep).length - 1 = a2.length + sep.length := by
            simp
          rw [hlen1]
          have h1 : ((x :: a2) ++ sep).take (a2.length + sep.length)
              = (x :: (a2 ++ sep ++ b)).take (a2.length + sep.length) := by
            rw [show x :: (a2 ++ sep ++ b) = ((x :: a2) ++ sep) ++ b by simp]
            exact (List.take_append_of_le_length (by simp)).symm
          rw [h1, ht, List.take_append_eq_append_take,
              List.take_of_length_le (by omega)]
          congr 2
          omega
        exact ⟨[], t.take a2.length, by simpa using hL⟩
    rw [hnp]
    simp only [Bool.false_eq_true, if_false]
    have hih : splitOnFirst sep (a2 ++ sep ++ b) = some (a2, b) := by
      apply ih
      intro hocc
      apply hfirst
      obtain ⟨u, v, huv⟩ := hocc
      have hd : ((x :: a2) ++ sep).dropLast = x :: ((a2 ++ sep).dropLast) := by
        rw [show (x :: a2) ++ sep = x :: (a2 ++ sep) by simp,
          List.dropLast_cons_of_ne_nil (by simp [List.append_eq_nil, hsep])]
      refine ⟨x :: u, v, ?_⟩
      rw [hd, huv]
      simp
    rw [hih]

theorem trySeps_skip (pre rest : List (List Char)) (l : List Char)
    (h : ∀ s ∈ pre, ¬ occursIn s l) :
    trySeps (pre ++ rest) l = trySeps rest l := by
  induction pre with
  | nil => rfl
  | cons s pre2 ih =>
    have hs : splitOnFirst s l = none :=
      (splitOnFirst_none_iff s l).mpr (h s (by simp))
    simp only [List.cons_append, trySeps, hs]
    exact ih (fun s2 hs2 => h s2 (by simp [hs2]))

theorem pySeparators_ne_nil : ∀ s ∈ pySeparators, s ≠ [] := by decide

/-- The example line of the spec, `"a: b - c"`. -/
def exLine : List Char := ['a', ':', ' ', 'b', ' ', '-', ' ', 'c']

/-- Claim C7: `_split_key_val` tries colon, space-hyphen-space,
space-em-dash-space, en-dash and tab in strict priority order, splits on
the first occurrence of the first present separator, cleans both parts
(trim, then strip surrounding quote/emphasis characters); the spec
example `"a: b - c"` splits at the colon; a non-empty line with no
separator becomes the key with an empty value; an empty line yields no
pair. -/
theorem claim_C7_split_priority :
    (splitKeyVal exLine = some (['a'], ['b', ' ', '-', ' ', 'c']))
    ∧ (∀ l : List Char, l ≠ [] → (∀ sep ∈ pySeparators, ¬ occursIn sep l) →
        splitKeyVal l = some (cleanPart l, []))
    ∧ (splitKeyVal [] = none)
    ∧ (∀ pre sep post (a b : List Char), pySeparators = pre ++ sep :: post →
        (∀ s ∈ pre, ¬ occursIn s (a ++ sep ++ b)) →
        ¬ occursIn sep ((a ++ sep).dropLast) →
        splitKeyVal (a ++ sep ++ b) = some (cleanPart a, cleanPart b)) := by
  refine ⟨by decide, ?_, by decide, ?_⟩
  · intro l hne hnocc
    unfold splitKeyVal
    have h1 : trySeps pySeparators l = none := by
      have h2 := trySeps_skip pySeparators [] l hnocc
      simpa using h2
    rw [h1]
    cases l with
    | nil => exact absurd rfl hne
    | cons c cs => simp
  · intro pre sep post a b hdecomp hpre hfirst
    have hsep : sep ≠ [] := by
      apply pySeparators_ne_nil
      rw [hdecomp]
      simp
    have hsplit : splitOnFirst sep (a ++ sep ++ b) = some (a, b) :=
      splitOnFirst_of_first sep a b hsep hfirst
    unfold splitKeyVal
    rw [hdecomp, trySeps_skip pre (sep :: post) _ hpre]
    simp only [trySeps, hsplit]

/-- Witness for claim C7: the priority clause applied at the concrete line
`"k - v"` (hyphen separator, colon absent), and the no-separator clause at
the concrete line `"word"`. -/
theorem claim_C7_witness :
    splitKeyVal ['k', ' ', '-', ' ', 'v'] = some (['k'], ['v'])
    ∧ splitKeyVal ['w', 'o', 'r', 'd'] = some (['w', 'o', 'r', 'd'], []) := by
  constructor
  · have h := claim_C7_split_priority.2.2.2 [[':']] [' ', '-', ' ']
      [[' ', '—', ' '], ['–'], ['\t']] ['k'] ['v'] (by decide) (by decide) (by decide)
    simpa using h
  · have h := claim_C7_split_priority.2.1 ['w', 'o', 'r', 'd'] (by decide) (by decide)
    simpa using h

theorem dropWhile_cons_len (p : Char → Bool) (cs rest : List Char) (r : Char)
    (h : cs.dropWhile p = r :: rest) : rest.length < cs.length := by
  have h1 := dropWhile_len_le p cs
  rw [h] at h1
  simp at h1
  omega

theorem scanFill_fuel (pl : PMap) :
    ∀ n (l : List Char) (f1 f2 : Nat), l.length ≤ n → l.length ≤ f1 → l.length ≤ f2 →
      scanFill pl f1 l = scanFill pl f2 l := by
  intro n
  induction n with
  | zero =>
    intro l f1 f2 hn _ _
    have : l = [] := List.length_eq_zero.mp (by omega)
    subst this
    cases f1 <;> cases f2 <;> rfl
  | succ n ih =>
    intro l f1 f2 hn h1 h2
    cases l with
    | nil => cases f1 <;> cases f2 <;> rfl
    | cons c cs =>
      simp only [List.length_cons] at hn h1 h2
      cases f1 with
      | zero => omega
      | succ f1 =>
        cases f2 with
        | zero => omega
        | succ f2 =>
          simp only [scanFill]
          have hcs : cs.length ≤ n := by omega
          by_cases hc : c = lbChar
          · simp only [hc, if_true]
            by_cases he : (cs.takeWhile isWordChar).isEmpty
            · simp only [he, if_true]
              rw [ih cs f1 f2 hcs (by omega) (by omega)]
            · simp only [he, Bool.false_eq_true, if_false]
              cases hdw : cs.dropWhile isWordChar with
              | nil => rw [ih cs f1 f2 hcs (by omega) (by omega)]
              | cons r rest =>
                have hr := dropWhile_cons_len isWordChar cs rest r hdw
                by_cases hrb : r = rbChar
                · simp only [hrb, if_true]
                  rw [ih rest f1 f2 (by omega) (by omega) (by omega)]
                · simp only [hrb, Bool.false_eq_true, if_false]
                  rw [ih cs f1 f2 hcs (by omega) (by omega)]
          · simp only [hc, Bool.false_eq_true, if_false]
            rw [ih cs f1 f2 hcs (by omega) (by omega)]

theorem scanMarkers_fuel :
    ∀ n (l : List Char) (f1 f2 : Nat), l.length ≤ n → l.length ≤ f1 → l.length ≤ f2 →
      scanMarkers f1 l = scanMarkers f2 l := by
  intro n
  induction n with
  | zero =>
    intro l f1 f2 hn _ _
    have : l = [] := List.length_eq_zero.mp (by omega)
    subst this
    cases f1 <;> cases f2 <;> rfl
  | succ n ih =>
    intro l f1 f2 hn h1 h2
    cases l with
    | nil => cases f1 <;> cases f2 <;> rfl
    | cons c cs =>
      simp only [List.length_cons] at hn h1 h2
      cases f1 with
      | zero => omega
      | succ f1 =>
        cases f2 with
        | zero => omega
        | succ f2 =>
          simp only [scanMarkers]
          have hcs : cs.length ≤ n := by omega
          by_cases hc : c = lbChar
          · simp only [hc, if_true]
            by_cases he : (cs.takeWhile isWordChar).isEmpty
            · simp only [he, if_true]
              rw [ih cs f1 f2 hcs (by omega) (by omega)]
            · simp only [he, Bool.false_eq_true, if_false]
              cases hdw : cs.dropWhile isWordChar with
              | nil => rw [ih cs f1 f2 hcs (by omega) (by omega)]
              | cons r rest =>
                have hr := dropWhile_cons_len isWordChar cs rest r hdw
                by_cases hrb : r = rbChar
                · simp only [hrb, if_true]
                  rw [ih rest f1 f2 (by omega) (by omega) (by omega)]
                · simp only [hrb, Bool.false_eq_true, if_false]
                  rw [ih cs f1 f2 hcs (by omega) (by omega)]
          · simp only [hc, Bool.false_eq_true, if_false]
            rw [ih cs f1 f2 hcs (by omega) (by omega)]

theorem wellBracedF_fuel :
    ∀ n (l : List Char) (f1 f2 : Nat), l.length ≤ n → l.length ≤ f1 → l.length ≤ f2 →
      wellBracedF f1 l = wellBracedF f2 l := by
  intro n
  induction n with
  | zero =>
    intro l f1 f2 hn _ _
    have : l = [] := List.length_eq_zero.mp (by omega)
    subst this
    cases f1 <;> cases f2 <;> rfl
  | succ n ih =>
    intro l f1 f2 hn h1 h2
    cases l with
    | nil => cases f1 <;> cases f2 <;> rfl
    | cons c cs =>
      simp only [List.length_cons] at hn h1 h2
      cases f1 with
      | zero => omega
      | succ f1 =>
        cases f2 with
        | zero => omega
        | succ f2 =>
          simp only [wellBracedF]
          have hcs : cs.length ≤ n := by omega
          by_cases hc : c = lbChar
          · simp only [hc, if_true]
            by_cases he : (cs.takeWhile isWordChar).isEmpty
            · simp only [he, if_true]
            · simp only [he, Bool.false_eq_true, if_false]
              cases hdw : cs.dropWhile isWordChar with
              | nil => rfl
              | cons r rest =>
                have hr := dropWhile_cons_len isWordChar cs rest r hdw
                by_cases hrb : r = rbChar
                · simp only [hrb, if_true]
                  rw [ih rest f1 f2 (by omega) (by omega) (by omega)]
                · simp only [hrb, Bool.false_eq_true, if_false]
          · simp only [hc, Bool.false_eq_true, if_false]
            rw [ih cs f1 f2 hcs (by omega) (by omega)]

theorem takeWhile_all_append (p : Char → Bool) (name : List Char) (r : Char)
    (rest : List Char) (hall : ∀ c ∈ name, p c = true) (hr : p r = false) :
    (name ++ r :: rest).takeWhile p = name
    ∧ (name ++ r :: rest).dropWhile p = r :: rest := by
  induction name with
  | nil =>
    simp [List.takeWhile_cons, List.dropWhile_cons, hr]
  | cons c cs ih =>
    have hc : p c = true := hall c (by simp)
    have ih2 := ih (fun d hd => hall d (by simp [hd]))
    simp only [List.cons_append, List.takeWhile_cons, List.dropWhile_cons, hc, if_true]
    exact ⟨by rw [ih2.1], by rw [ih2.2]⟩

theorem rbChar_not_word : isWordChar rbChar = false := by decide

theorem mem_dedupAux (a : List Char) :
    ∀ (l seen : List (List Char)), a ∈ dedupAux l seen ↔ (a ∈ l ∧ a ∉ seen) := by
  intro l
  induction l with
  | nil => intro seen; simp [dedupAux]
  | cons x xs ih =>
    intro seen
    simp only [dedupAux]
    by_cases hx : x ∈ seen
    · rw [if_pos hx, ih seen]
      constructor
      · rintro ⟨h1, h2⟩
        exact ⟨by simp [h1], h2⟩
      · rintro ⟨h1, h2⟩
        rcases List.mem_cons.mp h1 with h | h
        · exact absurd (h ▸ hx) h2
        · exact ⟨h, h2⟩
    · rw [if_neg hx]
      simp only [List.mem_cons, ih (x :: seen)]
      constructor
      · rintro (rfl | ⟨h1, h2⟩)
        · exact ⟨Or.inl rfl, hx⟩
        · exact ⟨Or.inr h1, fun hc => h2 (by simp [hc])⟩
      · rintro ⟨h1 | h1, h2⟩
        · exact Or.inl h1
        · by_cases hax : a = x
          · exact Or.inl hax
          · exact Or.inr ⟨h1, by simp [hax, h2]⟩

theorem lookupV_mem (pl : PMap) (k v : List Char) (h : lookupV pl k = some v) :
    (k, v) ∈ pl := by
  induction pl with
  | nil => simp [lookupV] at h
  | cons kv rest ih =>
    cases kv with
    | mk k2 v2 =>
      simp only [lookupV] at h
      by_cases hk : k2 = k
      · rw [if_pos hk] at h
        injection h with hv
        simp [hk, hv]
      · rw [if_neg hk] at h
        simp [ih h]

theorem markers_nil_of_no_lb :
    ∀ n (l : List Char), l.length ≤ n → lbChar ∉ l → scanMarkers l.length l = [] := by
  intro n
  induction n with
  | zero =>
    intro l hn _
    have : l = [] := List.length_eq_zero.mp (by omega)
    subst this
    rfl
  | succ n ih =>
    intro l hn hlb
    cases l with
    | nil => rfl
    | cons c cs =>
      have hc : ¬ (c = lbChar) := fun h => hlb (by simp [h])
      simp only [List.length_cons] at hn ⊢
      simp only [scanMarkers, hc, Bool.false_eq_true, if_false]
      exact ih cs (by omega) (fun h => hlb (by simp [h]))

theorem scanFill_no_lb (pl : PMap) (hv : ∀ kv ∈ pl, lbChar ∉ kv.2) :
    ∀ n (l : List Char), l.length ≤ n →
      (∀ m ∈ scanMarkers l.length l, (lookupV pl m).isSome = true) →
      wellBracedF l.length l = true →
      lbChar ∉ scanFill pl l.length l := by
  intro n
  induction n with
  | zero =>
    intro l hn _ _
    have : l = [] := List.length_eq_zero.mp (by omega)
    subst this
    simp [scanFill]
  | succ n ih =>
    intro l hn hm hw
    cases l with
    | nil => simp [scanFill]
    | cons c cs =>
      simp only [List.length_cons] at hn hm hw ⊢
      by_cases hc : c = lbChar
      · simp only [scanMarkers, wellBracedF, scanFill, hc, if_true] at hm hw ⊢
        by_cases he : (cs.takeWhile isWordChar).isEmpty
        · rw [if_pos he] at hw
          exact absurd hw (by simp)
        · simp only [he, Bool.false_eq_true, if_false] at hm hw ⊢
          cases hdw : cs.dropWhile isWordChar with
          | nil =>
            rw [hdw] at hw
            simp at hw
          | cons r rest =>
            rw [hdw] at hm hw
            by_cases hrb : r = rbChar
            · simp only [hrb, if_true] at hm hw ⊢
              have hrl : rest.length < cs.length :=
                dropWhile_cons_len isWordChar cs rest r hdw
              have hmname := hm (cs.takeWhile isWordChar) (by simp)
              obtain ⟨v, hv2⟩ := Option.isSome_iff_exists.mp hmname
              rw [hv2]
              simp only [Option.getD_some]
              have hvnolb : lbChar ∉ v := hv _ (lookupV_mem pl _ v hv2)
              have hmk : scanMarkers cs.length rest = scanMarkers rest.length rest :=
                scanMarkers_fuel cs.length rest cs.length rest.length
                  (by omega) (by omega) (by omega)
              have hwb : wellBracedF cs.length rest = wellBracedF rest.length rest :=
                wellBracedF_fuel cs.length rest cs.length rest.length
                  (by omega) (by omega) (by omega)
              have hsf : scanFill pl cs.length rest = scanFill pl rest.length rest :=
                scanFill_fuel pl cs.length rest cs.length rest.length
                  (by omega) (by omega) (by omega)
              rw [hsf]
              have hih := ih rest (by omega)
                (fun m hm2 => hm m (by simp [hmk.symm ▸ hm2, List.mem_cons]))
                (hwb ▸ hw)
              rw [List.mem_append]
              push_neg
              exact ⟨hvnolb, hih⟩
            · simp only [hrb, Bool.false_eq_true, if_false] at hw
      · simp only [scanMarkers, wellBracedF, scanFill, hc, Bool.false_eq_true, if_false]
          at hm hw ⊢
        have hih := ih cs (by omega) hm hw
        rw [List.mem_cons]
        push_neg
        exact ⟨fun h => hc h.symm, hih⟩

theorem fillSub_marker (pl : PMap) (name v rest : List Char) (hne : name ≠ [])
    (hall : ∀ c ∈ name, isWordChar c = true) (hlook : lookupV pl name = some v) :
    fillSub pl (lbChar :: (name ++ rbChar :: rest)) = v ++ fillSub pl rest := by
  have htd := takeWhile_all_append isWordChar name rbChar rest hall rbChar_not_word
  have hie : name.isEmpty = false := by
    cases name with
    | nil => exact absurd rfl hne
    | cons a as => rfl
  unfold fillSub
  simp only [List.length_cons]
  simp only [scanFill, if_pos rfl, htd.1, htd.2, hie, Bool.false_eq_true, if_false,
    hlook, Option.getD_some]
  simp only [if_true]
  congr 1
  apply scanFill_fuel pl ((name ++ rbChar :: rest).length) rest
  · simp
    omega
  · simp
    omega
  · exact le_refl _

/-- The template consisting of the single marker named `a`. -/
def tmA : List Char := [lbChar, 'a', rbChar]

/-- A placeholder map binding `a` to the literal text of the marker
itself. -/
def plA : PMap := [(['a'], [lbChar, 'a', rbChar])]

/-- Counterexample to claim C2 as stated: in `plA` every marker of `tmA`
has a matching key, yet the filled result still contains a marker, because
the substituted value itself spells a marker and substitution does not
rescan it. -/
theorem claim_C2_counterexample :
    ((findPlaceholders tmA).all (fun nm => (lookupV plA nm).isSome)) = true
    ∧ loadAndFillPrompt tmA plA = Except.ok [lbChar, 'a', rbChar]
    ∧ findPlaceholders [lbChar, 'a', rbChar] ≠ [] := by
  refine ⟨by decide, rfl, by decide⟩

/-- Claim C2 (amended): substitution is purely textual — a marker whose
name is bound is replaced by the string form of its value, with the
substituted text not rescanned — and the filled result contains zero
remaining markers provided every marker has a matching key, no
substituted value contains an opening brace, and every opening brace of
the template opens a well-formed marker. -/
theorem claim_C2_amended :
    (∀ (pl : PMap) (name v rest : List Char), name ≠ [] →
        (∀ c ∈ name, isWordChar c = true) → lookupV pl name = some v →
        fillSub pl (lbChar :: (name ++ rbChar :: rest)) = v ++ fillSub pl rest)
    ∧ (∀ (pl : PMap) (tm : List Char),
        (∀ m ∈ findPlaceholders tm, (lookupV pl m).isSome = true) →
        (∀ kv ∈ pl, lbChar ∉ kv.2) → wellBraced tm = true →
        findPlaceholders (fillSub pl tm) = []) := by
  constructor
  · exact fillSub_marker
  · intro pl tm hkeys hvals hwb
    have hm : ∀ m ∈ scanMarkers tm.length tm, (lookupV pl m).isSome = true := by
      intro m hm2
      exact hkeys m ((mem_dedupAux m _ []).mpr ⟨hm2, by simp⟩)
    have hnolb : lbChar ∉ scanFill pl tm.length tm :=
      scanFill_no_lb pl hvals tm.length tm (le_refl _) hm hwb
    show dedupAux (scanMarkers (fillSub pl tm).length (fillSub pl tm)) [] = []
    rw [show fillSub pl tm = scanFill pl tm.length tm from rfl]
    rw [markers_nil_of_no_lb (scanFill pl tm.length tm).length _ (le_refl _) hnolb]
    rfl

/-- A map binding `a` to the plain text `x`. -/
def plW : PMap := [(['a'], ['x'])]

/-- Witness for claim C2 (amended) at concrete inputs: the head-marker
substitution equation at the marker `a` bound to `x`, and the
zero-remaining-markers clause at the template `h` followed by that
marker. -/
theorem claim_C2_witness :
    fillSub plW (lbChar :: (['a'] ++ rbChar :: ['!'])) = ['x'] ++ fillSub plW ['!']
    ∧ findPlaceholders (fillSub plW ['h', lbChar, 'a', rbChar]) = [] := by
  constructor
  · exact claim_C2_amended.1 plW ['a'] ['x'] ['!'] (by decide) (by decide) (by decide)
  · exact claim_C2_amended.2 plW ['h', lbChar, 'a', rbChar] (by decide) (by decide)
      (by decide)

/-- Claim C4: a template with at least one marker that has no matching key
makes the run fail, for every generation capability and parser alike (so
strictly before any generation call, with no partial result), with an
error naming exactly the unmet markers together with the names actually
supplied. -/
theorem claim_C4_missing_markers {α : Type} (tm : List Char) (pl : PMap)
    (t M : Int) (h : ∃ p ∈ findPlaceholders tm, lookupV pl p = none) :
    ∃ e : FillError,
      (∀ (gen : Nat → GenResult) (parse : List Char → List α)
          (cb : Option (Int → Int → Bool)), run tm pl gen parse cb t M = Except.error e)
      ∧ (∀ q, q ∈ e.missing ↔ (q ∈ findPlaceholders tm ∧ lookupV pl q = none))
      ∧ e.provided = pl.map Prod.fst := by
  obtain ⟨p, hp, hnone⟩ := h
  have hmem : p ∈ (findPlaceholders tm).filter (fun q => (lookupV pl q).isNone) := by
    rw [List.mem_filter]
    exact ⟨hp, by simp [hnone]⟩
  have hne : ((findPlaceholders tm).filter (fun q => (lookupV pl q).isNone)).isEmpty
      = false := by
    cases hf : (findPlaceholders tm).filter (fun q => (lookupV pl q).isNone) with
    | nil => rw [hf] at hmem; simp at hmem
    | cons a as => rfl
  have hload : loadAndFillPrompt tm pl = Except.error
      ⟨(findPlaceholders tm).filter (fun q => (lookupV pl q).isNone),
        pl.map Prod.fst⟩ := by
    unfold loadAndFillPrompt
    simp only [hne, Bool.false_eq_true, if_false]
  refine ⟨⟨(findPlaceholders tm).filter (fun q => (lookupV pl q).isNone),
    pl.map Prod.fst⟩, ?_, ?_, rfl⟩
  · intro gen parse cb
    unfold run
    rw [hload]
  · intro q
    simp only [List.mem_filter, Option.isNone_iff_eq_none, decide_eq_true_eq]

/-- Witness for claim C4 at the concrete template `tmA` with an empty
placeholder map. -/
theorem claim_C4_witness :
    ∃ e : FillError,
      run tmA [] (fun _ => GenResult.err)
          (fun s => parseLexiconGenerating s []) none 5 10 = Except.error e
      ∧ (∀ q, q ∈ e.missing ↔ (q ∈ findPlaceholders tmA ∧ lookupV [] q = none))
      ∧ e.provided = [] := by
  obtain ⟨e, h1, h2, h3⟩ := claim_C4_missing_markers tmA [] 5 10
    ⟨['a'], by decide, by decide⟩
  exact ⟨e, h1 _ _ _, h2, h3⟩

theorem runLoop_batches_le {α : Type} (gen : Nat → GenResult)
    (parse : List Char → List α) (cb : Option (Int → Int → Bool)) (t M : Int) :
    ∀ (fuel : Nat) (collected : List α) (b : Nat) (calls : List CbCall),
      (runLoop gen parse cb t M fuel collected b calls).batches ≤ max b M.toNat := by
  intro fuel
  induction fuel with
  | zero =>
    intro collected b calls
    simp [runLoop]
  | succ fuel ih =>
    intro collected b calls
    simp only [runLoop]
    by_cases hg : (collected.length : Int) < t ∧ (b : Int) < M
    · rw [if_pos hg]
      have hbM : b + 1 ≤ M.toNat := by
        have h2 := hg.2
        omega
      cases hgen : gen (b + 1) with
      | err =>
        simp only []
        omega
      | ok s =>
        simp only []
        by_cases he : (parse s).isEmpty
        · rw [if_pos he]
          show b + 1 ≤ max b M.toNat
          omega
        · rw [if_neg he]
          refine le_trans (ih _ _ _) ?_
          omega
    · rw [if_neg hg]
      simp only []
      omega

/-- Claim C10: when the requested count or the batch ceiling is not
positive, the loop body never executes — `run` returns the empty list with
zero batches and zero callback invocations for every generation
capability, parser and callback — while a prompt precondition failure is
still raised first. -/
theorem claim_C10_degenerate {α : Type} (tm : List Char) (pl : PMap)
    (gen : Nat → GenResult) (parse : List Char → List α)
    (cb : Option (Int → Int → Bool)) (t M : Int) (h : t ≤ 0 ∨ M ≤ 0) :
    run tm pl gen parse cb t M
      = (loadAndFillPrompt tm pl).map (fun _ => ⟨[], 0, []⟩) := by
  unfold run
  cases hload : loadAndFillPrompt tm pl with
  | error e => rfl
  | ok p =>
    simp only [Except.map]
    have hloop : runLoop gen parse cb t M M.toNat [] 0 [] = ⟨[], 0, []⟩ := by
      cases hf : M.toNat with
      | zero => rfl
      | succ f =>
        have ht : t ≤ 0 := by
          rcases h with h | h
          · exact h
          · omega
        simp only [runLoop]
        rw [if_neg]
        rintro ⟨h1, _⟩
        simp at h1
        omega
    rw [hloop]
    simp [pyTrim]

/-- Claim C1 (amended): a normally completing `run` returns at most
`target_count` records whenever `target_count` is non-negative, and
executes the loop body (hence the generation capability) at most
`max(max_batches, 0)` times. -/
theorem claim_C1_amended {α : Type} (tm : List Char) (pl : PMap)
    (gen : Nat → GenResult) (parse : List Char → List α)
    (cb : Option (Int → Int → Bool)) (t M : Int) (out : LoopOut α)
    (hok : run tm pl gen parse cb t M = Except.ok out) :
    (0 ≤ t → (out.collected.length : Int) ≤ t)
    ∧ (out.batches : Int) ≤ max M 0 := by
  unfold run at hok
  cases hload : loadAndFillPrompt tm pl with
  | error e =>
    rw [hload] at hok
    exact absurd hok (by simp)
  | ok p =>
    rw [hload] at hok
    simp only [] at hok
    injection hok with hout
    subst hout
    constructor
    · intro ht
      simp only [pyTrim, if_pos ht]
      have hlen := List.length_take t.toNat
        (runLoop gen parse cb t M M.toNat [] 0 []).collected
      rw [hlen]
      omega
    · have hb := runLoop_batches_le gen parse cb t M M.toNat [] 0 []
      rw [max_eq_right (Nat.zero_le _)] at hb
      dsimp only
      rw [← Int.toNat_eq_max]
      exact_mod_cast hb

/-- The marker-free template used for concrete runs. -/
def tmP : List Char := ['p']

/-- Counterexample to claim C1 as stated: with a negative
`target_count = max_batches = -1` (legal Python integers), the run
completes normally with zero records and zero batches, and neither
`0 ≤ target_count` nor `0 ≤ max_batches` holds. -/
theorem claim_C1_counterexample :
    run tmP [] (fun _ => GenResult.err) (fun s => parseLexiconGenerating s [])
        none (-1) (-1) = Except.ok ⟨[], 0, []⟩
    ∧ ¬ ((((⟨[], 0, []⟩ : LoopOut LexItem).collected.length : Int) ≤ -1)
          ∧ (((⟨[], 0, []⟩ : LoopOut LexItem).batches : Int) ≤ -1)) := by
  exact ⟨rfl, by decide⟩

/-- Witness for claim C1 (amended) at a concrete failing-generator run. -/
theorem claim_C1_witness :
    (0 ≤ (2 : Int) →
      (((⟨[], 1, []⟩ : LoopOut LexItem).collected.length : Int) ≤ 2))
    ∧ ((⟨[], 1, []⟩ : LoopOut LexItem).batches : Int) ≤ max 3 0 := by
  exact claim_C1_amended tmP [] (fun _ => GenResult.err)
    (fun s => parseLexiconGenerating s []) none 2 3 ⟨[], 1, []⟩ rfl

/-- Witness for claim C10 at a concrete degenerate run (`target_count = 0`
with a productive generator and a raising callback, none of which get
used). -/
theorem claim_C10_witness :
    run tmP [] (fun _ => GenResult.ok ['x']) (fun s => parseLexiconGenerating s [])
        (some (fun _ _ => true)) 0 5
      = (loadAndFillPrompt tmP []).map (fun _ => (⟨[], 0, []⟩ : LoopOut LexItem)) :=
  claim_C10_degenerate tmP [] (fun _ => GenResult.ok ['x'])
    (fun s => parseLexiconGenerating s []) (some (fun _ _ => true)) 0 5
    (Or.inl (by decide))

theorem join_range_shift {α : Type} (parse : List Char → List α)
    (s : Nat → List Char) (b0 j : Nat) :
    ((List.range (j + 1)).map (fun i => parse (s (b0 + i + 1)))).flatten
      = parse (s (b0 + 1))
        ++ ((List.range j).map (fun i => parse (s (b0 + 1 + i + 1)))).flatten := by
  rw [List.range_succ_eq_map, List.map_cons, List.flatten_cons, List.map_map]
  congr 2
  congr 1
  funext i
  show parse (s (b0 + (i + 1) + 1)) = parse (s (b0 + 1 + i + 1))
  congr 2
  omega

/-- The batch loop on a prefix of `j` productive batches followed by one
failing batch: it stops right at the failing batch, with the accumulator
holding exactly the records of the productive batches, in order. -/
theorem runLoop_partial {α : Type} (gen : Nat → GenResult)
    (parse : List Char → List α) (cb : Option (Int → Int → Bool)) (t M : Int)
    (s : Nat → List Char) :
    ∀ (j b0 : Nat) (collected : List α) (calls : List CbCall),
      (∀ i, b0 < i → i ≤ b0 + j → gen i = GenResult.ok (s i) ∧ parse (s i) ≠ []) →
      ((collected.length : Int)
        + (((List.range j).map (fun i => parse (s (b0 + i + 1)))).flatten.length : Int)
          < t) →
      ((b0 + j : Int) < M) →
      (gen (b0 + j + 1) = GenResult.err
        ∨ ∃ sb, gen (b0 + j + 1) = GenResult.ok sb ∧ parse sb = []) →
      ∃ callsF, runLoop gen parse cb t M (M.toNat - b0) collected b0 calls
        = ⟨collected
              ++ ((List.range j).map (fun i => parse (s (b0 + i + 1)))).flatten,
            b0 + j + 1, callsF⟩ := by
  intro j
  induction j with
  | zero =>
    intro b0 collected calls hgood hlen hb hfail
    simp only [List.range_zero, List.map_nil, List.flatten_nil, List.length_nil,
      List.append_nil] at hlen ⊢
    have hb0 : (b0 : Int) < M := by simpa using hb
    have hfuel : 0 < M.toNat - b0 := by omega
    cases hf : M.toNat - b0 with
    | zero => omega
    | succ f =>
      simp only [runLoop]
      rw [if_pos ⟨by push_cast at hlen ⊢; omega, hb0⟩]
      rcases hfail with hgen | ⟨sb, hgen, hpe⟩
      · rw [show b0 + 0 + 1 = b0 + 1 by omega] at hgen
        rw [hgen]
        exact ⟨calls, by rw [show b0 + 0 + 1 = b0 + 1 by omega]⟩
      · rw [show b0 + 0 + 1 = b0 + 1 by omega] at hgen
        rw [hgen]
        simp only []
        rw [if_pos (by simp [hpe])]
        exact ⟨calls, by rw [show b0 + 0 + 1 = b0 + 1 by omega]⟩
  | succ j ih =>
    intro b0 collected calls hgood hlen hb hfail
    obtain ⟨hg1, hne1⟩ := hgood (b0 + 1) (by omega) (by omega)
    have hsh := join_range_shift parse s b0 j
    have hb0 : (b0 : Int) < M := by push_cast at hb; omega
    have hlen0 : (collected.length : Int) < t := by
      have hnn : (0 : Int) ≤ ((((List.range (j + 1)).map
          (fun i => parse (s (b0 + i + 1)))).flatten.length : Int)) := by positivity
      omega
    have hfuel : 0 < M.toNat - b0 := by omega
    cases hf : M.toNat - b0 with
    | zero => omega
    | succ f =>
      simp only [runLoop]
      rw [if_pos ⟨hlen0, hb0⟩, hg1]
      simp only []
      rw [if_neg (by simp [hne1])]
      have hf2 : f = M.toNat - (b0 + 1) := by omega
      rw [hf2]
      have hconcl : collected
            ++ ((List.range (j + 1)).map (fun i => parse (s (b0 + i + 1)))).flatten
          = (collected ++ parse (s (b0 + 1)))
            ++ ((List.range j).map (fun i => parse (s (b0 + 1 + i + 1)))).flatten := by
        rw [hsh, List.append_assoc]
      rw [hconcl, show b0 + (j + 1) + 1 = b0 + 1 + j + 1 by omega]
      exact ih (b0 + 1) (collected ++ parse (s (b0 + 1))) _
        (fun i h1 h2 => hgood i (by omega) (by omega))
        (by
          rw [hsh] at hlen
          simp only [List.length_append] at hlen ⊢
          push_cast at hlen ⊢
          omega)
        (by push_cast at hb ⊢; omega)
        (by
          rw [show b0 + 1 + j + 1 = b0 + (j + 1) + 1 by omega]
          exact hfail)

/-- Claim C3: when batches `1..b` are productive and batch `b + 1` fails —
the generation capability raises, or the parse of its response yields zero
records — `run` stops at batch `b + 1` and returns, without raising,
exactly the records accumulated from the preceding batches (truncated to
`target_count`); with `b = 0` a first-call failure yields an empty
sequence. -/
theorem claim_C3_early_stop {α : Type} (tm : List Char) (pl : PMap)
    (gen : Nat → GenResult) (parse : List Char → List α)
    (cb : Option (Int → Int → Bool)) (t M : Int) (p : List Char) (b : Nat)
    (s : Nat → List Char)
    (hfill : loadAndFillPrompt tm pl = Except.ok p)
    (hgood : ∀ i, 1 ≤ i → i ≤ b → gen i = GenResult.ok (s i) ∧ parse (s i) ≠ [])
    (hlen : ((((List.range b).map (fun i => parse (s (i + 1)))).flatten.length : Int)
      < t))
    (hb : (b : Int) < M)
    (hfail : gen (b + 1) = GenResult.err
      ∨ ∃ sb, gen (b + 1) = GenResult.ok sb ∧ parse sb = []) :
    ∃ callsF, run tm pl gen parse cb t M
      = Except.ok ⟨pyTrim ((List.range b).map (fun i => parse (s (i + 1)))).flatten t,
          b + 1, callsF⟩ := by
  have hidx : (fun i => parse (s (0 + i + 1))) = (fun i => parse (s (i + 1))) := by
    funext i
    rw [Nat.zero_add]
  obtain ⟨callsF, hloop⟩ := runLoop_partial gen parse cb t M s b 0 [] []
    (fun i h1 h2 => hgood i (by omega) (by omega))
    (by rw [hidx]; simpa using hlen)
    (by simpa using hb)
    (by rw [Nat.zero_add]; exact hfail)
  refine ⟨callsF, ?_⟩
  unfold run
  rw [hfill]
  simp only [Nat.sub_zero] at hloop
  rw [hloop]
  simp only [List.nil_append, Nat.zero_add]

/-- Witness for claim C3 at a concrete run whose generator fails on the
very first call: the run returns an empty sequence without raising. -/
theorem claim_C3_witness :
    ∃ callsF, run tmP [] (fun _ => GenResult.err)
        (fun r => parseLexiconGenerating r []) none 5 10
      = Except.ok ⟨pyTrim (((List.range 0).map
          (fun i => parseLexiconGenerating
            ((fun _ => ([] : List Char)) (i + 1)) [])).flatten) 5, 0 + 1, callsF⟩ :=
  claim_C3_early_stop tmP [] (fun _ => GenResult.err)
    (fun r => parseLexiconGenerating r []) none 5 10 (fillSub [] tmP) 0
    (fun _ => ([] : List Char)) rfl
    (by intro i h1 h2; omega)
    (by simp)
    (by norm_num)
    (Or.inl rfl)

theorem ceil_mul_ge (t k : Nat) (hk : 0 < k) : t ≤ ((t + k - 1) / k) * k := by
  have h := Nat.div_add_mod (t + k - 1) k
  have hr : (t + k - 1) % k < k := Nat.mod_lt _ hk
  rw [Nat.mul_comm] at h
  generalize hq : (t + k - 1) / k = q at h ⊢
  generalize hR : (t + k - 1) % k = r at h hr
  generalize hK : q * k = K at h ⊢
  omega

theorem lt_ceil_mul_lt (t k b : Nat) (hk : 0 < k) (hb : b < (t + k - 1) / k) :
    b * k < t := by
  have h := Nat.div_add_mod (t + k - 1) k
  have hr : (t + k - 1) % k < k := Nat.mod_lt _ hk
  rw [Nat.mul_comm] at h
  generalize hq : (t + k - 1) / k = q at h hb
  generalize hR : (t + k - 1) % k = r at h hr
  have h2 : b * k ≤ (q - 1) * k := Nat.mul_le_mul_right k (by omega)
  have h3 : (q - 1) * k + k = q * k := by
    cases q with
    | zero => omega
    | succ q2 => simp [Nat.succ_mul]
  generalize hB : b * k = B at h2 ⊢
  generalize hQ1 : (q - 1) * k = Q1 at h2 h3
  generalize hK : q * k = K at h h3
  omega

/-- The batch loop under a constant productive generator: starting at
batch `b0` with `b0 * k` records already accumulated, it runs until batch
`q = ceil(target / k)` and stops there with `q * k` records, provided
`q ≤ max_batches`. -/
theorem runLoop_const {α : Type} (gen : Nat → GenResult)
    (parse : List Char → List α) (cb : Option (Int → Int → Bool)) (t M : Int)
    (S : List Char) (I : List α) (k : Nat) (q : Nat)
    (hgen : ∀ i, gen i = GenResult.ok S) (hparse : parse S = I)
    (hlen : I.length = k) (hk : 0 < k) (ht : 0 < t)
    (hq : q = (t.toNat + k - 1) / k) (hqM : (q : Int) ≤ M) :
    ∀ (j b0 : Nat) (collected : List α) (calls : List CbCall),
      b0 + j = q → collected.length = b0 * k →
      ∃ callsF colF, runLoop gen parse cb t M (M.toNat - b0) collected b0 calls
        = ⟨colF, q, callsF⟩ ∧ colF.length = q * k := by
  have hine : I.isEmpty = false := by
    cases I with
    | nil => simp at hlen; omega
    | cons a as => rfl
  intro j
  induction j with
  | zero =>
    intro b0 collected calls hbq hclen
    have hb0 : b0 = q := by omega
    have hge : t ≤ (collected.length : Int) := by
      rw [hclen, hb0]
      have h1 : t.toNat ≤ q * k := hq ▸ ceil_mul_ge t.toNat k hk
      push_cast
      omega
    cases hf : M.toNat - b0 with
    | zero =>
      refine ⟨calls, collected, ?_, by rw [hclen, hb0]⟩
      rw [hb0]
      rfl
    | succ f =>
      refine ⟨calls, collected, ?_, by rw [hclen, hb0]⟩
      simp only [runLoop]
      rw [if_neg (by rintro ⟨h1, _⟩; omega), hb0]
  | succ j ih =>
    intro b0 collected calls hbq hclen
    have hblt : b0 < q := by omega
    have hblt2 : (b0 : Int) < M := by
      have hcast : (b0 : Int) < (q : Int) := by exact_mod_cast hblt
      omega
    have hlg : (collected.length : Int) < t := by
      rw [hclen]
      have h1 : b0 * k < t.toNat := lt_ceil_mul_lt t.toNat k b0 hk (hq ▸ hblt)
      have h2 : (0 : Int) < t := ht
      push_cast
      omega
    have hfuel : 0 < M.toNat - b0 := by omega
    cases hf : M.toNat - b0 with
    | zero => omega
    | succ f =>
      simp only [runLoop]
      rw [if_pos ⟨hlg, hblt2⟩, hgen (b0 + 1)]
      simp only []
      rw [if_neg (by rw [hparse, hine]; simp)]
      rw [hparse]
      have hf2 : f = M.toNat - (b0 + 1) := by omega
      rw [hf2]
      exact ih (b0 + 1) (collected ++ I) _ (by omega)
        (by rw [List.length_append, hclen, hlen, Nat.succ_mul])

/-- Claim C5 (amended): with a generation capability that always returns a
fixed batch of `k > 0` parsable records and `ceil(target_count / k) ≤
max_batches`, `run` returns exactly `min(target_count, k *
ceil(target_count / k))` records truncated to `target_count` (that is,
`target_count` records), using exactly `ceil(target_count / k)` batches,
which never exceeds `max_batches`. -/
theorem claim_C5_amended {α : Type} (tm : List Char) (pl : PMap)
    (gen : Nat → GenResult) (parse : List Char → List α)
    (cb : Option (Int → Int → Bool)) (t M : Int) (S : List Char) (I : List α)
    (k : Nat) (p : List Char)
    (hfill : loadAndFillPrompt tm pl = Except.ok p)
    (hgen : ∀ i, gen i = GenResult.ok S)
    (hparse : parse S = I) (hlen : I.length = k) (hk : 0 < k) (ht : 0 < t)
    (hqM : (((t.toNat + k - 1) / k : Nat) : Int) ≤ M) :
    ∃ out, run tm pl gen parse cb t M = Except.ok out
      ∧ (out.collected.length : Int)
          = min t ((k : Int) * (((t.toNat + k - 1) / k : Nat) : Int))
      ∧ out.batches = (t.toNat + k - 1) / k
      ∧ (out.batches : Int) ≤ M := by
  obtain ⟨callsF, colF, hloop, hcol⟩ := runLoop_const gen parse cb t M S I k
    ((t.toNat + k - 1) / k) hgen hparse hlen hk ht rfl hqM
    ((t.toNat + k - 1) / k) 0 [] [] (by omega) (by simp)
  have hge : t.toNat ≤ ((t.toNat + k - 1) / k) * k := ceil_mul_ge t.toNat k hk
  refine ⟨⟨pyTrim colF t, (t.toNat + k - 1) / k, callsF⟩, ?_, ?_, rfl, hqM⟩
  · unfold run
    rw [hfill]
    simp only [Nat.sub_zero] at hloop
    rw [hloop]
  · have h0t : 0 ≤ t := le_of_lt ht
    simp only [pyTrim, if_pos h0t]
    rw [List.length_take, hcol]
    have hmin1 : min t.toNat (((t.toNat + k - 1) / k) * k) = t.toNat :=
      min_eq_left hge
    rw [hmin1]
    have hmin2 : min t ((k : Int) * (((t.toNat + k - 1) / k : Nat) : Int)) = t := by
      apply min_eq_left
      have hcast : (t.toNat : Int) ≤ ((((t.toNat + k - 1) / k) * k : Nat) : Int) :=
        Int.ofNat_le.mpr hge
      rw [Nat.cast_mul] at hcast
      have htn : (t.toNat : Int) = t := by omega
      rw [htn] at hcast
      rw [mul_comm]
      exact hcast
    rw [hmin2]
    omega

/-- The constant response `"w: t"` used by the concrete constant-batch
runs. -/
def wResp : List Char := ['w', ':', ' ', 't']

/-- Counterexample to claim C5 as stated: with `k = 1`, `target_count = 3`
but `max_batches = 2`, the run stops at the batch ceiling with only 2
records, while the claim promises `min(3, 1 * ceil(3/1)) = 3` records;
`ceil(3/1) = 3` exceeds `max_batches`. -/
theorem claim_C5_counterexample :
    (run tmP [] (fun _ => GenResult.ok wResp)
        (fun r => parseLexiconGenerating r []) none 3 2).map
          (fun o => (o.collected.length, o.batches))
      = Except.ok (2, 2)
    ∧ (((3 : Int).toNat + 1 - 1) / 1 : Nat) = 3
    ∧ ¬ ((2 : Int) = min 3 ((1 : Int) * 3)) := by
  exact ⟨rfl, by decide, by decide⟩

/-- Witness for claim C5 (amended) at a concrete constant-batch run with
`k = 1`, `target_count = 3`, `max_batches = 5`. -/
theorem claim_C5_witness :
    ∃ out, run tmP [] (fun _ => GenResult.ok wResp)
        (fun r => parseLexiconGenerating r []) none 3 5 = Except.ok out
      ∧ (out.collected.length : Int)
          = min 3 ((1 : Int) * ((((3 : Int).toNat + 1 - 1) / 1 : Nat) : Int))
      ∧ out.batches = ((3 : Int).toNat + 1 - 1) / 1
      ∧ (out.batches : Int) ≤ 5 :=
  claim_C5_amended tmP [] (fun _ => GenResult.ok wResp)
    (fun r => parseLexiconGenerating r []) none 3 5 wResp
    (parseLexiconGenerating wResp []) 1 (fillSub [] tmP) rfl (fun i => rfl) rfl
    (by decide) (by decide) (by decide) (by decide)

/-- Forget the `raised` flag of every recorded callback invocation: the
observable loop outcome apart from how the observer behaved. -/
def stripRaised {α : Type} (o : LoopOut α) : List α × Nat × List (Nat × Int × Int) :=
  (o.collected, o.batches, o.calls.map (fun c => (c.accLen, c.a1, c.a2)))

theorem runLoop_cb_irrelevant {α : Type} (gen : Nat → GenResult)
    (parse : List Char → List α) (t M : Int) (f g : Int → Int → Bool) :
    ∀ (fuel : Nat) (collected : List α) (b : Nat) (calls1 calls2 : List CbCall),
      calls1.map (fun c => (c.accLen, c.a1, c.a2))
        = calls2.map (fun c => (c.accLen, c.a1, c.a2)) →
      stripRaised (runLoop gen parse (some f) t M fuel collected b calls1)
        = stripRaised (runLoop gen parse (some g) t M fuel collected b calls2) := by
  intro fuel
  induction fuel with
  | zero =>
    intro collected b calls1 calls2 hmap
    simp only [runLoop, stripRaised]
    rw [hmap]
  | succ fuel ih =>
    intro collected b calls1 calls2 hmap
    simp only [runLoop]
    by_cases hg : (collected.length : Int) < t ∧ (b : Int) < M
    · rw [if_pos hg, if_pos hg]
      cases hgen : gen (b + 1) with
      | err =>
        simp only [stripRaised]
        rw [hmap]
      | ok s =>
        simp only []
        by_cases he : (parse s).isEmpty
        · rw [if_pos he, if_pos he]
          simp only [stripRaised]
          rw [hmap]
        · rw [if_neg he, if_neg he]
          apply ih
          simp only [List.map_append, List.map_cons, List.map_nil]
          rw [hmap]
    · rw [if_neg hg, if_neg hg]
      simp only [stripRaised]
      rw [hmap]

theorem runLoop_cb_args {α : Type} (gen : Nat → GenResult)
    (parse : List Char → List α) (t M : Int) (f : Int → Int → Bool) :
    ∀ (fuel : Nat) (collected : List α) (b : Nat) (calls : List CbCall),
      (∀ c ∈ calls, c.a1 = min (c.accLen : Int) t ∧ c.a2 = t) →
      ∀ c ∈ (runLoop gen parse (some f) t M fuel collected b calls).calls,
        c.a1 = min (c.accLen : Int) t ∧ c.a2 = t := by
  intro fuel
  induction fuel with
  | zero =>
    intro collected b calls hcalls
    simpa only [runLoop] using hcalls
  | succ fuel ih =>
    intro collected b calls hcalls
    simp only [runLoop]
    by_cases hg : (collected.length : Int) < t ∧ (b : Int) < M
    · rw [if_pos hg]
      cases hgen : gen (b + 1) with
      | err => simpa only [] using hcalls
      | ok s =>
        simp only []
        by_cases he : (parse s).isEmpty
        · rw [if_pos he]
          simpa only [] using hcalls
        · rw [if_neg he]
          apply ih
          intro c hc
          rcases List.mem_append.mp hc with hc1 | hc2
          · exact hcalls c hc1
          · simp only [List.mem_singleton] at hc2
            subst hc2
            exact ⟨rfl, rfl⟩
    · rw [if_neg hg]
      simpa only [] using hcalls

/-- Claim C8: the arguments of every recorded progress-callback invocation
are `(min(accumulated_count, target_count), target_count)`, and an error
raised by the callback is caught and ignored — the records, the batch
count and the invocation arguments of the run are identical for any two
callbacks, raising or not. -/
theorem claim_C8_callback {α : Type} (tm : List Char) (pl : PMap)
    (gen : Nat → GenResult) (parse : List Char → List α) (t M : Int)
    (f g : Int → Int → Bool) :
    ((run tm pl gen parse (some f) t M).map stripRaised
        = (run tm pl gen parse (some g) t M).map stripRaised)
    ∧ (∀ out, run tm pl gen parse (some f) t M = Except.ok out →
        ∀ c ∈ out.calls, c.a1 = min (c.accLen : Int) t ∧ c.a2 = t) := by
  constructor
  · unfold run
    cases hload : loadAndFillPrompt tm pl with
    | error e => rfl
    | ok p =>
      simp only [Except.map]
      have h := runLoop_cb_irrelevant gen parse t M f g M.toNat [] 0 [] [] rfl
      simp only [stripRaised, Prod.mk.injEq] at h
      obtain ⟨hc, hb, hm⟩ := h
      simp only [stripRaised, hc, hb, hm]
  · intro out hout
    unfold run at hout
    cases hload : loadAndFillPrompt tm pl with
    | error e =>
      rw [hload] at hout
      exact absurd hout (by simp)
    | ok p =>
      rw [hload] at hout
      simp only [] at hout
      injection hout with hout2
      subst hout2
      exact runLoop_cb_args gen parse t M f M.toNat [] 0 [] (by simp)

/-- Witness for claim C8 at a concrete run with a raising callback versus
a non-raising one. -/
theorem claim_C8_witness :
    ((run tmP [] (fun _ => GenResult.ok wResp)
        (fun r => parseLexiconGenerating r []) (some (fun _ _ => true)) 1 3).map
          stripRaised
      = (run tmP [] (fun _ => GenResult.ok wResp)
        (fun r => parseLexiconGenerating r []) (some (fun _ _ => false)) 1 3).map
          stripRaised)
    ∧ (∀ c ∈ (⟨[lexEntry [] ['w'] ['t']], 1, [⟨1, 1, 1, true⟩]⟩
          : LoopOut LexItem).calls,
        c.a1 = min (c.accLen : Int) 1 ∧ c.a2 = 1) := by
  refine ⟨(claim_C8_callback tmP [] (fun _ => GenResult.ok wResp)
      (fun r => parseLexiconGenerating r []) 1 3 (fun _ _ => true)
      (fun _ _ => false)).1, ?_⟩
  exact (claim_C8_callback tmP [] (fun _ => GenResult.ok wResp)
      (fun r => parseLexiconGenerating r []) 1 3 (fun _ _ => true)
      (fun _ _ => false)).2 _ rfl
